import Mathlib

/-!
Verification of the JWT public-key recovery tool (`recover.py`).

The numeric cores of the two recovery engines and their helpers are embedded
as Lean definitions:

* `removeSmallPrimes` embeds `removeSmallPrimes` (recover.py lines 37-43):
  a walk over all primes `i` with `2 ≤ i < 2000` (the source iterates
  `i = gmpy2.next_prime(i)` starting from 2) dividing `x` by `i` once
  whenever `i` divides the current value.
* `getKeysize` embeds `getKeysize` (lines 45-47); the float computation
  `math.ceil(math.log(sig_size, 2))` is modelled as the exact ceiling
  base-2 logarithm `Nat.clog 2`.
* `getHash` embeds `getHash` (lines 28-35) with the PKCS#1 v1.5 padded
  digest block abstracted as an input `em` (hashing and ASN.1 formatting are
  external libraries); signing is `em ^ d mod n`, and the function returns
  `(em ^ d mod n) ^ e mod n`.
* `recoverRSAModulus` embeds the numeric part of `recoverRSAKey`
  (lines 62-66): `removeSmallPrimes (gcd (s1^e - h1) (s2^e - h2))`.
* `bytesToNat`, `mod_sqrt`, `onCurve`, `ecdsaRecoverRaw` embed the decoding
  and point-validation part of `recoverECDSAKey` (lines 77-85), with
  `mod_sqrt` modelling the `p % 4 == 3` branch of `fastecdsa.util.mod_sqrt`
  (the only branch reachable for the supported curves P-256/P-384/P-521) and
  `onCurve` modelling the on-curve check performed by the `fastecdsa.point.Point`
  constructor.
* `recoverECDSACandidates` embeds the point computation of `recoverECDSAKey`
  (lines 87-94) on Mathlib's affine Weierstrass points.
* `handleRSA` embeds the dispatch logic of `handleRSA` (lines 104-125) with
  token-header decoding (an external concern) abstracted to the list of
  declared `alg` values.
-/

/-- Boolean primality test by trial division, valid for `n < 2025`
(45 * 45 = 2025); used to enumerate the primes below 2000 that
`gmpy2.next_prime` walks through in `removeSmallPrimes`. -/
def isSmallPrime (n : ℕ) : Bool :=
  2 ≤ n && (List.range 43).all (fun j => j + 2 == n || n % (j + 2) != 0)

/-- The primes `i` with `2 ≤ i < 2000`, in increasing order: exactly the
values taken by the loop variable `i` of `removeSmallPrimes`
(recover.py lines 38-42). -/
def smallPrimes : List ℕ :=
  (List.range 2000).filter isSmallPrime

/-- One iteration of the `removeSmallPrimes` loop body
(recover.py lines 40-41): `if x % i == 0: x = x // i`. -/
def stripStep (y i : ℕ) : ℕ :=
  if y % i = 0 then y / i else y

/-- Embedding of `removeSmallPrimes` (recover.py lines 37-43): for each
prime below 2000 in increasing order, divide once by that prime if it
divides the current value. -/
def removeSmallPrimes (x : ℕ) : ℕ :=
  smallPrimes.foldl stripStep x

/-- Bit length of a natural number, as Python's `int.bit_length()`. -/
def bitLength (n : ℕ) : ℕ :=
  if n = 0 then 0 else Nat.log 2 n + 1

/-- Embedding of `getKeysize` (recover.py lines 45-47):
`pow(2, math.ceil(math.log(sig_size, 2)))` with the floating-point
logarithm modelled as the exact ceiling base-2 logarithm. -/
def getKeysize (sig : ℕ) : ℕ :=
  2 ^ Nat.clog 2 (bitLength sig)

/-- Embedding of the numeric core of `recoverRSAKey` (recover.py
lines 62-66): the gcd of `s1^e - h1` and `s2^e - h2` over the integers
(`gmpy2.gcd` returns the nonnegative gcd), then small-prime stripping. -/
def recoverRSAModulus (s1 s2 h1 h2 e : ℕ) : ℕ :=
  removeSmallPrimes (Int.gcd ((s1 : ℤ) ^ e - (h1 : ℤ)) ((s2 : ℤ) ^ e - (h2 : ℤ)))

/-- Big-endian byte-list to integer conversion: the value of
`int(bytes.hex(), 16)` in `recoverECDSAKey` (recover.py lines 80-81) for a
nonempty byte string. On the empty string `int` raises a `ValueError`
instead of returning a value; that failure case is modelled by
`bytesToNatChecked`. -/
def bytesToNat (l : List ℕ) : ℕ :=
  l.foldl (fun acc byte => acc * 256 + byte) 0

/-- Big-endian byte-list to integer conversion including its failure case:
`int(hex, 16)` raises `ValueError` on the empty string, which
`recoverECDSAKey` reaches when a signature half is empty (raw signature of
length at most 1). -/
def bytesToNatChecked (l : List ℕ) : Except String ℕ :=
  match l with
  | [] => Except.error "invalid literal for int with base 16"
  | _ :: _ => Except.ok (bytesToNat l)

/-- Embedding of `fastecdsa.util.mod_sqrt` in its `p % 4 == 3` branch (the
only branch reachable for the supported curves P-256, P-384 and P-521):
`r = pow(x, (p + 1) // 4, p)` and the returned pair is `(r, p - r)`.
The candidate root is returned whether or not `x` is a quadratic residue. -/
def mod_sqrt (x : ℤ) (p : ℕ) : ℤ × ℤ :=
  ((x ^ ((p + 1) / 4)) % (p : ℤ), (p : ℤ) - (x ^ ((p + 1) / 4)) % (p : ℤ))

/-- The on-curve check performed by the `fastecdsa.point.Point` constructor:
`(y^2 - (x^3 + a*x + b)) % p == 0`; the constructor raises an exception when
the check fails. -/
def onCurve (a b : ℤ) (p : ℕ) (x y : ℤ) : Bool :=
  (y ^ 2 - (x ^ 3 + a * x + b)) % (p : ℤ) == 0

/-- Embedding of the decode-and-validate part of `recoverECDSAKey`
(recover.py lines 77-85): the raw signature bytes are floor-split into two
halves `r` and `s` (no length-parity check exists in the source), the two
square-root candidates for the y-coordinate at `x = r` are computed, and the
`Point` constructor checks both candidates are on the curve, raising
(modelled as `Except.error`) otherwise. On success it returns
`((r, s), (y1, y2))`. The halves are converted with the total `bytesToNat`,
which agrees with the source whenever both halves are nonempty (raw
signature of length at least 2); `ecdsaRecoverRawChecked` also models the
integer-conversion failure on an empty half and coincides with this
function on all other inputs. -/
def ecdsaRecoverRaw (a b : ℤ) (p : ℕ) (rs : List ℕ) : Except String ((ℕ × ℕ) × (ℤ × ℤ)) :=
  let n := rs.length / 2
  let r := bytesToNat (rs.take n)
  let s := bytesToNat (rs.drop n)
  let ys := mod_sqrt ((r : ℤ) ^ 3 + a * (r : ℤ) + b) p
  if onCurve a b p (r : ℤ) ys.1 then
    if onCurve a b p (r : ℤ) ys.2 then
      Except.ok ((r, s), ys)
    else Except.error "point not on curve"
  else Except.error "point not on curve"

/-- Embedding of the decode-and-validate part of `recoverECDSAKey`
(recover.py lines 77-85) with the integer conversion of each half modelled
faithfully, including the `ValueError` that `int` raises on an empty half:
the `r` half is converted first, then the `s` half, and only then do the
curve steps run, exactly as in `ecdsaRecoverRaw`. -/
def ecdsaRecoverRawChecked (a b : ℤ) (p : ℕ) (rs : List ℕ) :
    Except String ((ℕ × ℕ) × (ℤ × ℤ)) :=
  match bytesToNatChecked (rs.take (rs.length / 2)) with
  | Except.error e => Except.error e
  | Except.ok r =>
    match bytesToNatChecked (rs.drop (rs.length / 2)) with
    | Except.error e => Except.error e
    | Except.ok s =>
      let ys := mod_sqrt ((r : ℤ) ^ 3 + a * (r : ℤ) + b) p
      if onCurve a b p (r : ℤ) ys.1 then
        if onCurve a b p (r : ℤ) ys.2 then
          Except.ok ((r, s), ys)
        else Except.error "point not on curve"
      else Except.error "point not on curve"

/-- Outcome of the `handleRSA` dispatch (recover.py lines 104-125): either a
diagnostic (fewer than two tokens, algorithm mismatch, unsupported
algorithm) or proceeding into `recoverRSAKey` with the selected hash width.
`proceed` marks the point where the numeric recovery computation starts;
every other outcome returns before any numeric work. -/
inductive RSAOutcome
  | needTokens
  | mismatch (found expected : String)
  | proceed (hashBits : ℕ)
  | unsupported
deriving DecidableEq

/-- Embedding of `handleRSA` (recover.py lines 104-125). Token and header
decoding are external concerns (spec section 1), so each token is
represented by its declared `alg` header field. `alg` is the field decoded
from the first token by the caller. -/
def handleRSA (alg : String) (tokenAlgs : List String) : RSAOutcome :=
  match tokenAlgs with
  | _ :: alg2 :: _ =>
    if alg2 ≠ alg then RSAOutcome.mismatch alg2 alg
    else if alg = "RS256" then RSAOutcome.proceed 256
    else if alg = "RS384" then RSAOutcome.proceed 384
    else if alg = "RS512" then RSAOutcome.proceed 512
    else RSAOutcome.unsupported
  | _ => RSAOutcome.needTokens

/-- One `str.replace` call on a token, as used in `__main__`
(recover.py line 154); for single-character patterns `str.replace` is a
character-wise map. -/
def pyReplaceChar (c1 c2 : Char) (s : List Char) : List Char :=
  s.map (fun c => if c = c1 then c2 else c)

/-- The global base64url-to-base64 substitution applied to each whole token
string in `__main__` (recover.py line 154):
`jwt.replace("-", "+").replace("_", "/")`. -/
def normalizeToken (s : List Char) : List Char :=
  pyReplaceChar '_' '/' (pyReplaceChar '-' '+' s)

/-- The combined effect of the two replacements on one character. -/
def normChar (c : Char) : Char :=
  if c = '-' then '+' else if c = '_' then '/' else c

/-- Python's `str.split(sep)` for a one-character separator, used by both
engines as `token.split(".")` (recover.py lines 50, 77). -/
def strSplit (sep : Char) : List Char → List (List Char)
  | [] => [[]]
  | c :: rest =>
    if c = sep then [] :: strSplit sep rest
    else
      match strSplit sep rest with
      | [] => [[c]]
      | x :: xs => (c :: x) :: xs

/-- The message string both engines hash: `header + "." + body` where
`header` and `body` are the first two dot-separated segments of the token as
seen by the engine (recover.py lines 31 and 89), that is, of the token after
the global substitution in `__main__`. -/
def engineMessage (token : List Char) : List Char :=
  match strSplit '.' token with
  | h :: b :: _ => h ++ '.' :: b
  | _ => []

/-- The short Weierstrass curve `y^2 = x^3 + A*x + B` used by `fastecdsa`
for the supported NIST curves (`curve.a`, `curve.b` in recover.py line 83). -/
def shortW {F : Type} [Field F] (A B : F) : WeierstrassCurve.Affine F :=
  { a₁ := 0, a₂ := 0, a₃ := 0, a₄ := A, a₆ := B }

/-- Modular inverse, as `gmpy2.invert(r, curve.q)` (recover.py line 87); the
inverse is the canonical representative of the inverse in `ZMod n`. -/
def invmod (a n : ℕ) : ℕ :=
  ((a : ZMod n)⁻¹).val

/-- Computable slope of the line through two affine points, matching
`WeierstrassCurve.Affine.slope` case by case. -/
def slopeC {F : Type} [Field F] [DecidableEq F] (W : WeierstrassCurve.Affine F)
    (x₁ x₂ y₁ y₂ : F) : F :=
  if x₁ = x₂ then
    if y₁ = W.negY x₂ y₂ then 0
    else (3 * x₁ ^ 2 + 2 * W.a₂ * x₁ + W.a₄ - W.a₁ * y₁) / (y₁ - W.negY x₁ y₁)
  else (y₁ - y₂) / (x₁ - x₂)

/-- Computable affine point addition (the group law implemented by
`fastecdsa.point.Point.__add__`), matching `WeierstrassCurve.Affine.Point.add`
case by case. -/
def pAdd {F : Type} [Field F] [DecidableEq F] {W : WeierstrassCurve.Affine F} :
    W.Point → W.Point → W.Point
  | .zero, P => P
  | P, .zero => P
  | @WeierstrassCurve.Affine.Point.some _ _ _ x₁ y₁ h₁,
    @WeierstrassCurve.Affine.Point.some _ _ _ x₂ y₂ h₂ =>
    if h : x₁ = x₂ ∧ y₁ = W.negY x₂ y₂ then .zero
    else WeierstrassCurve.Affine.Point.some
      (x := W.addX x₁ x₂ (slopeC W x₁ x₂ y₁ y₂))
      (y := W.addY x₁ x₂ y₁ (slopeC W x₁ x₂ y₁ y₂))
      (by
        have hs : slopeC W x₁ x₂ y₁ y₂ = W.slope x₁ x₂ y₁ y₂ := by
          by_cases hx : x₁ = x₂
          · by_cases hy : y₁ = W.negY x₂ y₂
            · rw [slopeC, if_pos hx, if_pos hy,
                WeierstrassCurve.Affine.slope_of_Y_eq hx hy]
            · rw [slopeC, if_pos hx, if_neg hy,
                WeierstrassCurve.Affine.slope_of_Y_ne hx hy]
          · rw [slopeC, if_neg hx, WeierstrassCurve.Affine.slope_of_X_ne hx]
        rw [hs]
        exact WeierstrassCurve.Affine.nonsingular_add h₁ h₂ (fun hx hy => h ⟨hx, hy⟩))

/-- Computable point subtraction: `P - Q = P + (-Q)`
(`fastecdsa.point.Point.__sub__`). -/
def pSub {F : Type} [Field F] [DecidableEq F] {W : WeierstrassCurve.Affine F}
    (P Q : W.Point) : W.Point :=
  pAdd P (WeierstrassCurve.Affine.Point.neg Q)

/-- Computable scalar multiplication by repeated addition
(`fastecdsa` scalar multiplication, here in its simplest recursive form). -/
def pSmul {F : Type} [Field F] [DecidableEq F] {W : WeierstrassCurve.Affine F} :
    ℕ → W.Point → W.Point
  | 0, _ => .zero
  | n + 1, P => pAdd P (pSmul n P)

/-- Embedding of the point computation of `recoverECDSAKey` (recover.py
lines 87-94): `r_inv = invert(r, curve.q)` and the two candidate keys
`k_i = r_inv * (s * R_i - h * G)` for the two candidate ephemeral points. -/
def recoverECDSACandidates {F : Type} [Field F] [DecidableEq F]
    {W : WeierstrassCurve.Affine F} (q : ℕ) (G : W.Point) (r s h : ℕ)
    (R1 R2 : W.Point) : W.Point × W.Point :=
  (pSmul (invmod r q) (pSub (pSmul s R1) (pSmul h G)),
   pSmul (invmod r q) (pSub (pSmul s R2) (pSmul h G)))

instance fact_prime_seven : Fact (Nat.Prime 7) := ⟨by norm_num⟩

/-- The witness curve `y^2 = x^3 + 5` over `F_7`; its point group is cyclic
of prime order 7. -/
def wCurve : WeierstrassCurve.Affine (ZMod 7) := shortW 0 5

/-- The witness base point `G = (3, 2)` on `wCurve`. -/
def wG : wCurve.Point := WeierstrassCurve.Affine.Point.some (x := 3) (y := 2)
  (by
    rw [WeierstrassCurve.Affine.nonsingular_iff, WeierstrassCurve.Affine.equation_iff]
    decide)

section StripLemmas

lemma stripStep_dvd (x i : ℕ) : stripStep x i ∣ x := by
  unfold stripStep
  split
  · exact Nat.div_dvd_of_dvd (Nat.dvd_of_mod_eq_zero (by assumption))
  · exact dvd_rfl

lemma stripAux_dvd : ∀ (l : List ℕ) (x : ℕ), List.foldl stripStep x l ∣ x := by
  intro l
  induction l with
  | nil => intro x; exact dvd_rfl
  | cons i t ih =>
    intro x
    rw [List.foldl_cons]
    exact (ih (stripStep x i)).trans (stripStep_dvd x i)

lemma stripAux_sq : ∀ (l : List ℕ) (x p : ℕ), p ∈ l →
    p ∣ List.foldl stripStep x l → p * p ∣ x := by
  intro l
  induction l with
  | nil => intro x p hmem; exact absurd hmem (List.not_mem_nil p)
  | cons i t ih =>
    intro x p hmem hdvd
    rw [List.foldl_cons] at hdvd
    rcases List.mem_cons.mp hmem with rfl | hmem'
    · -- the loop step at i = p itself
      have hx' : p ∣ stripStep x p := hdvd.trans (stripAux_dvd t (stripStep x p))
      by_cases hmod : x % p = 0
      · have hdvdx : p ∣ x := Nat.dvd_of_mod_eq_zero hmod
        have hquot : p ∣ x / p := by
          rwa [stripStep, if_pos hmod] at hx'
        obtain ⟨c, hc⟩ := hquot
        refine ⟨c, ?_⟩
        have h1 : p * (x / p) = x := Nat.mul_div_cancel' hdvdx
        rw [hc] at h1
        rw [← h1]
        ring
      · rw [stripStep, if_neg hmod] at hx'
        rw [← Nat.dvd_iff_mod_eq_zero] at hmod
        exact absurd hx' hmod
    · exact ((ih (stripStep x i) p hmem' hdvd).trans (stripStep_dvd x i))

lemma stripAux_fixed : ∀ (l : List ℕ) (x : ℕ),
    (∀ i ∈ l, ¬ i ∣ x) → List.foldl stripStep x l = x := by
  intro l
  induction l with
  | nil => intro x _; rfl
  | cons i t ih =>
    intro x hnd
    rw [List.foldl_cons]
    have hmod : ¬ x % i = 0 := by
      rw [← Nat.dvd_iff_mod_eq_zero]
      exact hnd i (List.mem_cons_self i t)
    have hstep : stripStep x i = x := by rw [stripStep, if_neg hmod]
    rw [hstep]
    exact ih x (fun j hj => hnd j (List.mem_cons_of_mem i hj))

lemma stripAux_preserve : ∀ (l : List ℕ) (x n : ℕ), (∀ i ∈ l, Nat.Prime i) →
    (∀ i ∈ l, ¬ i ∣ n) → n ∣ x → n ∣ List.foldl stripStep x l := by
  intro l
  induction l with
  | nil => intro x n _ _ h; exact h
  | cons i t ih =>
    intro x n hpr hnd hdvd
    rw [List.foldl_cons]
    refine ih (stripStep x i) n (fun j hj => hpr j (List.mem_cons_of_mem i hj))
      (fun j hj => hnd j (List.mem_cons_of_mem i hj)) ?_
    unfold stripStep
    split
    · -- i divides x; dividing once preserves divisibility by n since i does not divide n
      rename_i hmod
      have hi : Nat.Prime i := hpr i (List.mem_cons_self i t)
      have hix : i ∣ x := Nat.dvd_of_mod_eq_zero hmod
      obtain ⟨c, hc⟩ := hdvd
      have hic : i ∣ c := by
        rcases (Nat.Prime.dvd_mul hi).mp (hc ▸ hix) with h | h
        · exact absurd h (hnd i (List.mem_cons_self i t))
        · exact h
      obtain ⟨d, hd⟩ := hic
      refine ⟨d, ?_⟩
      subst hd
      subst hc
      rw [Nat.mul_div_assoc n (Dvd.intro d rfl)]
      rw [Nat.mul_div_cancel_left d hi.pos]
    · exact hdvd

lemma isSmallPrime_iff {n : ℕ} (hn : n < 2025) : isSmallPrime n = true ↔ Nat.Prime n := by
  have hall : isSmallPrime n = true ↔
      2 ≤ n ∧ ∀ j < 43, j + 2 = n ∨ ¬ n % (j + 2) = 0 := by
    simp [isSmallPrime, List.all_eq_true, List.mem_range]
  rw [hall]
  constructor
  · rintro ⟨h2, hdiv⟩
    by_contra hnp
    have hm := Nat.minFac_sq_le_self (by omega) hnp
    have hmp : Nat.Prime n.minFac := Nat.minFac_prime (by omega)
    have hm2 : 2 ≤ n.minFac := hmp.two_le
    have hm45 : n.minFac < 45 := by nlinarith [hm]
    have hmn : n.minFac ≠ n := by
      intro h
      exact hnp (Nat.prime_def_minFac.mpr ⟨h2, h⟩)
    have hj := hdiv (n.minFac - 2) (by omega)
    rcases hj with h | h
    · exact hmn (by omega)
    · have : n.minFac ∣ n := Nat.minFac_dvd n
      have h2' : n.minFac - 2 + 2 = n.minFac := by omega
      rw [h2'] at h
      rw [← Nat.dvd_iff_mod_eq_zero] at h
      exact h this
  · intro hp
    refine ⟨hp.two_le, fun j hj => ?_⟩
    by_cases hjn : j + 2 = n
    · exact Or.inl hjn
    · refine Or.inr ?_
      rw [← Nat.dvd_iff_mod_eq_zero]
      intro hdvd
      rcases (Nat.Prime.eq_one_or_self_of_dvd hp (j + 2) hdvd) with h | h
      · omega
      · exact hjn h

lemma mem_smallPrimes {p : ℕ} : p ∈ smallPrimes ↔ Nat.Prime p ∧ p < 2000 := by
  unfold smallPrimes
  rw [List.mem_filter, List.mem_range]
  constructor
  · rintro ⟨hlt, hsp⟩
    exact ⟨(isSmallPrime_iff (by omega)).mp hsp, hlt⟩
  · rintro ⟨hp, hlt⟩
    exact ⟨hlt, (isSmallPrime_iff (by omega)).mpr hp⟩

end StripLemmas

set_option maxRecDepth 100000 in
set_option maxHeartbeats 1600000 in
/-- Claim C3 counterexample: `removeSmallPrimes` divides each prime out only
once, so the result of `removeSmallPrimes 4` is `2`, which is still divisible
by the prime `2 < 2000`, falsifying the claim that the returned value is not
divisible by any prime below 2000. -/
theorem removeSmallPrimes_four_counterexample :
    0 < 4 ∧ Nat.Prime 2 ∧ 2 < 2000 ∧ removeSmallPrimes 4 = 2 ∧ 2 ∣ removeSmallPrimes 4 := by
  have h4 : removeSmallPrimes 4 = 2 := by decide
  refine ⟨by norm_num, by norm_num, by norm_num, h4, ?_⟩
  rw [h4]

/-- Claim C3 (amended): each prime below 2000 is divided out of `x` at most
once by `removeSmallPrimes`, so any prime `p < 2000` still dividing the result
must divide `x` with multiplicity at least two. -/
theorem removeSmallPrimes_strip_once (x p : ℕ) (hp : Nat.Prime p) (hlt : p < 2000)
    (hdvd : p ∣ removeSmallPrimes x) : p * p ∣ x :=
  stripAux_sq smallPrimes x p (mem_smallPrimes.mpr ⟨hp, hlt⟩) hdvd

set_option maxRecDepth 100000 in
set_option maxHeartbeats 1600000 in
/-- Witness for `removeSmallPrimes_strip_once` at `x = 4`, `p = 2`. -/
theorem removeSmallPrimes_strip_once_witness :
    Nat.Prime 2 ∧ 2 < 2000 ∧ 2 ∣ removeSmallPrimes 4 ∧ 2 * 2 ∣ 4 := by
  have h4 : 2 ∣ removeSmallPrimes 4 := by decide
  exact ⟨by norm_num, by norm_num, h4, removeSmallPrimes_strip_once 4 2 (by norm_num) (by norm_num) h4⟩

set_option maxRecDepth 100000 in
set_option maxHeartbeats 1600000 in
/-- Claim C4 counterexample: `removeSmallPrimes` is not idempotent.
`removeSmallPrimes 4 = 2` (the single division by 2 leaves a factor 2) but
`removeSmallPrimes 2 = 1`. -/
theorem removeSmallPrimes_not_idempotent :
    removeSmallPrimes (removeSmallPrimes 4) ≠ removeSmallPrimes 4 := by
  have h4 : removeSmallPrimes 4 = 2 := by decide
  have h2 : removeSmallPrimes 2 = 1 := by decide
  rw [h4, h2]
  decide

/-- Claim C4 (amended): `removeSmallPrimes` is idempotent on every input not
divisible by the square of any prime below 2000 (in particular on every
squarefree input). -/
theorem removeSmallPrimes_idempotent_of_no_small_square (x : ℕ)
    (h : ∀ p, Nat.Prime p → p < 2000 → ¬ p * p ∣ x) :
    removeSmallPrimes (removeSmallPrimes x) = removeSmallPrimes x := by
  unfold removeSmallPrimes
  refine stripAux_fixed smallPrimes _ ?_
  intro i hi hdvd
  obtain ⟨hip, hilt⟩ := mem_smallPrimes.mp hi
  exact h i hip hilt (stripAux_sq smallPrimes x i hi hdvd)

/-- Witness for `removeSmallPrimes_idempotent_of_no_small_square` at `x = 1`. -/
theorem removeSmallPrimes_idempotent_witness :
    removeSmallPrimes (removeSmallPrimes 1) = removeSmallPrimes 1 :=
  removeSmallPrimes_idempotent_of_no_small_square 1
    (fun p hp _ hdvd => absurd (Nat.le_of_dvd Nat.one_pos hdvd)
      (by have := hp.two_le; nlinarith))

/-- Claim C9: for every positive signature value, `getKeysize` returns the
least power of two greater than or equal to the bit length of the signature. -/
theorem getKeysize_least_pow_two (s : ℕ) (hs : 0 < s) :
    (∃ j, getKeysize s = 2 ^ j) ∧ bitLength s ≤ getKeysize s ∧
      ∀ k, bitLength s ≤ 2 ^ k → getKeysize s ≤ 2 ^ k := by
  refine ⟨⟨Nat.clog 2 (bitLength s), rfl⟩, ?_, ?_⟩
  · exact Nat.le_pow_clog one_lt_two _
  · intro k hk
    exact Nat.pow_le_pow_right (by norm_num) ((Nat.le_pow_iff_clog_le one_lt_two).mp hk)

/-- Witness for `getKeysize_least_pow_two` at `s = 5` (bit length 3,
key size estimate 4). -/
theorem getKeysize_least_pow_two_witness :
    0 < 5 ∧ ((∃ j, getKeysize 5 = 2 ^ j) ∧ bitLength 5 ≤ getKeysize 5 ∧
      ∀ k, bitLength 5 ≤ 2 ^ k → getKeysize 5 ≤ 2 ^ k) :=
  ⟨by norm_num, getKeysize_least_pow_two 5 (by norm_num)⟩

lemma natModEq_intModEq {n a b : ℕ} (h : a ≡ b [MOD n]) :
    (a : ℤ) ≡ (b : ℤ) [ZMOD (n : ℤ)] := by
  have h' : ((a % n : ℕ) : ℤ) = ((b % n : ℕ) : ℤ) := congrArg _ h
  rwa [Int.natCast_mod, Int.natCast_mod] at h'

lemma pow_congr_one_mod_prime (p m h : ℕ) (hp : Nat.Prime p)
    (hm1 : m ≡ 1 [MOD p - 1]) (hm : 1 ≤ m) : h ^ m ≡ h [MOD p] := by
  by_cases hph : p ∣ h
  · have h0 : h ≡ 0 [MOD p] := Nat.modEq_zero_iff_dvd.mpr hph
    calc h ^ m ≡ 0 ^ m [MOD p] := h0.pow m
    _ = 0 := by rw [zero_pow (by omega)]
    _ ≡ h [MOD p] := h0.symm
  · have hco : h.Coprime p := Nat.coprime_comm.mp (hp.coprime_iff_not_dvd.mpr hph)
    have hd : (p - 1) ∣ (m - 1) := (Nat.modEq_iff_dvd' hm).mp hm1.symm
    obtain ⟨t, ht⟩ := hd
    have hm' : m = (p - 1) * t + 1 := by omega
    rw [hm', pow_succ]
    have h1 : h ^ ((p - 1) * t) ≡ 1 [MOD p] := by
      rw [pow_mul]
      have heuler := Nat.ModEq.pow_totient hco
      rw [Nat.totient_prime hp] at heuler
      calc (h ^ (p - 1)) ^ t ≡ 1 ^ t [MOD p] := heuler.pow t
      _ = 1 := one_pow t
    calc h ^ ((p - 1) * t) * h ≡ 1 * h [MOD p] := h1.mul_right h
    _ = h := one_mul h

lemma rsa_identity (p q e d h : ℕ) (hp : Nat.Prime p) (hq : Nat.Prime q)
    (hpq : p ≠ q) (hed : e * d ≡ 1 [MOD (p - 1) * (q - 1)]) :
    h ^ (e * d) ≡ h [MOD p * q] := by
  have hed1 : 1 ≤ e * d := by
    rcases Nat.eq_zero_or_pos (e * d) with h0 | h1
    · exfalso
      rw [h0] at hed
      have hdvd : (p - 1) * (q - 1) ∣ 1 := (Nat.modEq_iff_dvd' (by omega)).mp hed
      have h1eq : (p - 1) * (q - 1) = 1 := Nat.dvd_one.mp hdvd
      have h2p := hp.two_le
      have h2q := hq.two_le
      have hple : (p - 1) ≤ (p - 1) * (q - 1) := Nat.le_mul_of_pos_right _ (by omega)
      have hqle : (q - 1) ≤ (p - 1) * (q - 1) := Nat.le_mul_of_pos_left _ (by omega)
      rw [h1eq] at hple hqle
      exact hpq (by omega)
    · exact h1
  have hmp : h ^ (e * d) ≡ h [MOD p] :=
    pow_congr_one_mod_prime p (e * d) h hp
      (Nat.ModEq.of_dvd (dvd_mul_right (p - 1) (q - 1)) hed) hed1
  have hmq : h ^ (e * d) ≡ h [MOD q] :=
    pow_congr_one_mod_prime q (e * d) h hq
      (Nat.ModEq.of_dvd (dvd_mul_left (q - 1) (p - 1)) hed) hed1
  exact (Nat.modEq_and_modEq_iff_modEq_mul
    ((Nat.coprime_primes hp hq).mpr hpq)).mp ⟨hmp, hmq⟩

/-- Claim C1 (amended): for a valid RSA key pair whose primes both exceed the
stripping bound, and genuine PKCS#1 v1.5 signatures `s1`, `s2` of padded
hashes `h1 ≠ h2`, the real modulus `p * q` divides the value computed by
`recoverRSAKey` (gcd followed by small-prime stripping). The computed value
is a multiple of the modulus but need not equal it. -/
theorem recoverRSAModulus_multiple (p q e d h1 h2 s1 s2 : ℕ)
    (hp : Nat.Prime p) (hq : Nat.Prime q) (hpq : p ≠ q)
    (hpbig : 2000 ≤ p) (hqbig : 2000 ≤ q)
    (hed : e * d ≡ 1 [MOD (p - 1) * (q - 1)])
    (hne : h1 ≠ h2)
    (hs1 : s1 = h1 ^ d % (p * q)) (hs2 : s2 = h2 ^ d % (p * q)) :
    (p * q) ∣ recoverRSAModulus s1 s2 h1 h2 e := by
  have key : ∀ s h : ℕ, s = h ^ d % (p * q) →
      ((p * q : ℕ) : ℤ) ∣ (s : ℤ) ^ e - (h : ℤ) := by
    intro s h hs
    have hmod : s ≡ h ^ d [MOD p * q] := by
      rw [hs]
      exact Nat.mod_modEq _ _
    have h1' : s ^ e ≡ (h ^ d) ^ e [MOD p * q] := hmod.pow e
    have h2' : (h ^ d) ^ e ≡ h [MOD p * q] := by
      rw [← pow_mul, mul_comm d e]
      exact rsa_identity p q e d h hp hq hpq hed
    have h3 : s ^ e ≡ h [MOD p * q] := h1'.trans h2'
    have h5 := (natModEq_intModEq h3).symm.dvd
    rwa [Nat.cast_pow] at h5
  have hgcd : ((p * q : ℕ) : ℤ) ∣
      (Int.gcd ((s1 : ℤ) ^ e - (h1 : ℤ)) ((s2 : ℤ) ^ e - (h2 : ℤ)) : ℤ) :=
    Int.dvd_gcd (key s1 h1 hs1) (key s2 h2 hs2)
  have hgcdN : (p * q) ∣ Int.gcd ((s1 : ℤ) ^ e - (h1 : ℤ)) ((s2 : ℤ) ^ e - (h2 : ℤ)) :=
    Int.natCast_dvd_natCast.mp hgcd
  unfold recoverRSAModulus removeSmallPrimes
  refine stripAux_preserve smallPrimes _ (p * q)
    (fun i hi => (mem_smallPrimes.mp hi).1) ?_ hgcdN
  intro i hi hidvd
  obtain ⟨hip, hilt⟩ := mem_smallPrimes.mp hi
  rcases (Nat.Prime.dvd_mul hip).mp hidvd with hcase | hcase
  · rw [Nat.prime_dvd_prime_iff_eq hip hp] at hcase
    omega
  · rw [Nat.prime_dvd_prime_iff_eq hip hq] at hcase
    omega

/-- Witness for `recoverRSAModulus_multiple`: primes 2003 and 2011, exponent
17 with inverse 3787313 modulo 2002 * 2010, padded hashes 2 and 3 with their
genuine signatures. -/
theorem recoverRSAModulus_multiple_witness :
    Nat.Prime 2003 ∧ Nat.Prime 2011 ∧
      17 * 3787313 ≡ 1 [MOD (2003 - 1) * (2011 - 1)] ∧
      (2003 * 2011) ∣ recoverRSAModulus (2 ^ 3787313 % (2003 * 2011))
        (3 ^ 3787313 % (2003 * 2011)) 2 3 17 :=
  ⟨by norm_num, by norm_num, by decide,
    recoverRSAModulus_multiple 2003 2011 17 3787313 2 3 _ _ (by norm_num) (by norm_num)
      (by norm_num) (by norm_num) (by norm_num) (by decide) (by norm_num) rfl rfl⟩

set_option maxRecDepth 100000 in
set_option maxHeartbeats 1600000 in
/-- Claim C1 counterexample: the key pair `(n, e, d) = (55, 3, 27)` is valid
(`3 * 27 = 81` is 1 modulo `(5-1)*(11-1) = 40`), the padded hashes 14835 and
22486 are distinct with genuine signatures 50 and 51, yet the recovered
modulus is 2003 (an extraneous prime factor of the gcd at least 2000 survives
small-prime stripping), not `n = 55`. -/
theorem recoverRSAModulus_not_exact_counterexample :
    Nat.Prime 5 ∧ Nat.Prime 11 ∧ 3 * 27 ≡ 1 [MOD (5 - 1) * (11 - 1)] ∧
      (14835 : ℕ) ≠ 22486 ∧ 50 = 14835 ^ 27 % (5 * 11) ∧ 51 = 22486 ^ 27 % (5 * 11) ∧
      recoverRSAModulus 50 51 14835 22486 3 = 2003 ∧ (2003 : ℕ) ≠ 5 * 11 := by
  refine ⟨by norm_num, by norm_num, by decide, by norm_num, by decide, by decide, ?_, by norm_num⟩
  decide

lemma ecdsaRecoverRaw_error_msg (a b : ℤ) (p : ℕ) (rs : List ℕ) :
    ∀ msg, ecdsaRecoverRaw a b p rs = Except.error msg → msg = "point not on curve" := by
  intro msg hmsg
  simp only [ecdsaRecoverRaw] at hmsg
  split at hmsg
  · split at hmsg
    · exact absurd hmsg (by simp)
    · injection hmsg with hstr
      exact hstr.symm
  · injection hmsg with hstr
    exact hstr.symm

lemma ecdsaRecoverRawChecked_eq_raw (a b : ℤ) (p : ℕ) (rs : List ℕ)
    (h2 : 2 ≤ rs.length) :
    ecdsaRecoverRawChecked a b p rs = ecdsaRecoverRaw a b p rs := by
  have hlt : (rs.take (rs.length / 2)).length = rs.length / 2 := by
    rw [List.length_take]
    omega
  have hld : (rs.drop (rs.length / 2)).length = rs.length - rs.length / 2 :=
    List.length_drop _ _
  obtain ⟨x, xs, hx⟩ : ∃ x xs, rs.take (rs.length / 2) = x :: xs := by
    cases h : rs.take (rs.length / 2) with
    | nil =>
      rw [h] at hlt
      simp at hlt
      omega
    | cons x xs => exact ⟨x, xs, rfl⟩
  obtain ⟨y, ys2, hy⟩ : ∃ y ys2, rs.drop (rs.length / 2) = y :: ys2 := by
    cases h : rs.drop (rs.length / 2) with
    | nil =>
      rw [h] at hld
      simp at hld
      omega
    | cons y ys2 => exact ⟨y, ys2, rfl⟩
  simp only [ecdsaRecoverRawChecked, ecdsaRecoverRaw, hx, hy, bytesToNatChecked]

/-- Claim C6 counterexample: an odd-length (3-byte) raw signature is not
rejected; it is floor-split into `r = 3` (one byte) and `s = 2` (two bytes)
and the engine proceeds through the curve computation, here succeeding on the
curve `y^2 = x^3 + 5` over `F_7`. -/
theorem ecdsa_odd_signature_processed_counterexample :
    [3, 0, 2].length % 2 = 1 ∧
      ecdsaRecoverRawChecked 0 5 7 [3, 0, 2] = Except.ok ((3, 2), (2, 5)) ∧
      ecdsaRecoverRaw 0 5 7 [3, 0, 2] = Except.ok ((3, 2), (2, 5)) :=
  ⟨rfl, rfl, rfl⟩

/-- Claim C6 (amended): no length-parity check exists: for every odd-length
raw ECDSA signature the bytes are floor-split into a shorter `r` half and a
longer `s` half (lengths differing by one). For odd length 1 the engine then
fails converting the empty `r` half to an integer (the `ValueError` of `int`
on an empty string) - a decode failure at that degenerate length, still not
a parity check; for odd length at least 3 both halves decode and the engine
proceeds into the curve computation, whose on-curve check failure is the
only error it can produce. -/
theorem ecdsa_odd_signature_floor_split (a b : ℤ) (p : ℕ) (rs : List ℕ)
    (hodd : rs.length % 2 = 1) :
    (rs.take (rs.length / 2)).length + 1 = (rs.drop (rs.length / 2)).length ∧
      (rs.length = 1 →
        ecdsaRecoverRawChecked a b p rs =
          Except.error "invalid literal for int with base 16") ∧
      (3 ≤ rs.length → ∀ msg,
        ecdsaRecoverRawChecked a b p rs = Except.error msg →
          msg = "point not on curve") := by
  refine ⟨?_, ?_, ?_⟩
  · rw [List.length_take, List.length_drop]
    omega
  · intro h1
    have h0 : rs.length / 2 = 0 := by omega
    simp only [ecdsaRecoverRawChecked, h0, List.take_zero, bytesToNatChecked]
  · intro h3 msg hmsg
    rw [ecdsaRecoverRawChecked_eq_raw a b p rs (by omega)] at hmsg
    exact ecdsaRecoverRaw_error_msg a b p rs msg hmsg

/-- Witness for `ecdsa_odd_signature_floor_split` at a 3-byte signature
(curve computation reached) and a 1-byte signature (empty `r` half, integer
conversion fails). -/
theorem ecdsa_odd_signature_floor_split_witness :
    ([3, 0, 2].length % 2 = 1 ∧
      (([3, 0, 2].take ([3, 0, 2].length / 2)).length + 1 =
          ([3, 0, 2].drop ([3, 0, 2].length / 2)).length ∧
        ([3, 0, 2].length = 1 →
          ecdsaRecoverRawChecked 0 5 7 [3, 0, 2] =
            Except.error "invalid literal for int with base 16") ∧
        (3 ≤ [3, 0, 2].length → ∀ msg,
          ecdsaRecoverRawChecked 0 5 7 [3, 0, 2] = Except.error msg →
            msg = "point not on curve"))) ∧
    ([9].length % 2 = 1 ∧
      (([9].take ([9].length / 2)).length + 1 =
          ([9].drop ([9].length / 2)).length ∧
        ([9].length = 1 →
          ecdsaRecoverRawChecked 0 5 7 [9] =
            Except.error "invalid literal for int with base 16") ∧
        (3 ≤ [9].length → ∀ msg,
          ecdsaRecoverRawChecked 0 5 7 [9] = Except.error msg →
            msg = "point not on curve"))) :=
  ⟨⟨by decide, ecdsa_odd_signature_floor_split 0 5 7 [3, 0, 2] (by decide)⟩,
   ⟨by decide, ecdsa_odd_signature_floor_split 0 5 7 [9] (by decide)⟩⟩

/-- Claim C7 (amended): when `r` is not a valid x-coordinate (no y-coordinate
on the curve has `y^2 = r^3 + a*r + b` modulo `p`), the candidate returned by
`mod_sqrt` fails the `Point` constructor on-curve check and the engine
errors out before any key computation; `recover.py` installs no handler, so
in the source this error propagates as an uncaught exception rather than a
`RecoveryImpossibleError` diagnostic. -/
theorem ecdsa_nonresidue_errors (a b : ℤ) (p : ℕ) [NeZero p] (rs : List ℕ)
    (hnr : ∀ y : ZMod p, y ^ 2 ≠
      (((bytesToNat (rs.take (rs.length / 2)) : ℤ) ^ 3 +
        a * (bytesToNat (rs.take (rs.length / 2)) : ℤ) + b : ℤ) : ZMod p)) :
    ecdsaRecoverRaw a b p rs = Except.error "point not on curve" := by
  have hnotc : ∀ y : ℤ,
      onCurve a b p ((bytesToNat (rs.take (rs.length / 2)) : ℤ)) y = false := by
    intro y
    cases honc : onCurve a b p ((bytesToNat (rs.take (rs.length / 2)) : ℤ)) y with
    | false => rfl
    | true =>
      exfalso
      unfold onCurve at honc
      rw [beq_iff_eq] at honc
      have hdvd : (p : ℤ) ∣ (y ^ 2 - (((bytesToNat (rs.take (rs.length / 2)) : ℤ)) ^ 3 +
          a * ((bytesToNat (rs.take (rs.length / 2)) : ℤ)) + b)) :=
        Int.dvd_of_emod_eq_zero honc
      have hzm := (ZMod.intCast_zmod_eq_zero_iff_dvd _ p).mpr hdvd
      rw [Int.cast_sub, sub_eq_zero] at hzm
      refine hnr ((y : ℤ) : ZMod p) ?_
      rw [← hzm]
      push_cast
      ring
  simp only [ecdsaRecoverRaw]
  rw [hnotc]
  simp

/-- Witness for `ecdsa_nonresidue_errors`: on `y^2 = x^3 + 5` over `F_7`,
`r = 1` gives `r^3 + 5 = 6`, a quadratic non-residue modulo 7. -/
theorem ecdsa_nonresidue_errors_witness :
    ecdsaRecoverRaw 0 5 7 [1, 9] = Except.error "point not on curve" :=
  ecdsa_nonresidue_errors 0 5 7 [1, 9] (by decide)

/-- Claim C7 counterexample: at the same non-residue input the engine's
result is an error value that no caller of `recoverECDSAKey` catches (the
source has no try/except), not a success-channel diagnostic: there is no
returned value at all. -/
theorem ecdsa_nonresidue_uncaught_counterexample :
    ecdsaRecoverRaw 0 5 7 [1, 9] = Except.error "point not on curve" ∧
      ∀ v, ecdsaRecoverRaw 0 5 7 [1, 9] ≠ Except.ok v := by
  constructor
  · rfl
  · intro v hv
    rw [show ecdsaRecoverRaw 0 5 7 [1, 9] = Except.error "point not on curve" from rfl] at hv
    exact Except.noConfusion hv

/-- Claim C8: when the second token's decoded header declares a different
`alg` than the first, `handleRSA` returns the mismatch diagnostic and in
particular never reaches the numeric recovery computation. -/
theorem handleRSA_mismatch_refuses (alg a1 a2 : String) (rest : List String)
    (hne : a2 ≠ alg) :
    handleRSA alg (a1 :: a2 :: rest) = RSAOutcome.mismatch a2 alg ∧
      ∀ hb, handleRSA alg (a1 :: a2 :: rest) ≠ RSAOutcome.proceed hb := by
  have h : handleRSA alg (a1 :: a2 :: rest) = RSAOutcome.mismatch a2 alg := by
    simp only [handleRSA]
    rw [if_pos hne]
  refine ⟨h, fun hb hcontra => ?_⟩
  rw [h] at hcontra
  exact RSAOutcome.noConfusion hcontra

/-- Witness for `handleRSA_mismatch_refuses` on tokens declaring RS256 and
RS512. -/
theorem handleRSA_mismatch_refuses_witness :
    handleRSA "RS256" ["RS256", "RS512"] = RSAOutcome.mismatch "RS512" "RS256" ∧
      ∀ hb, handleRSA "RS256" ["RS256", "RS512"] ≠ RSAOutcome.proceed hb :=
  handleRSA_mismatch_refuses "RS256" "RS256" "RS512" [] (by decide)

lemma normalizeToken_eq_map (s : List Char) : normalizeToken s = s.map normChar := by
  unfold normalizeToken pyReplaceChar
  rw [List.map_map]
  refine List.map_congr_left ?_
  intro c _
  simp only [Function.comp_apply]
  unfold normChar
  by_cases h1 : c = '-'
  · subst h1
    decide
  · rw [if_neg h1]
    rw [if_neg h1]

lemma normChar_eq_self_iff (c : Char) : normChar c = c ↔ (c ≠ '-' ∧ c ≠ '_') := by
  unfold normChar
  by_cases h1 : c = '-'
  · subst h1
    decide
  · rw [if_neg h1]
    by_cases h2 : c = '_'
    · subst h2
      decide
    · rw [if_neg h2]
      exact ⟨fun _ => ⟨h1, h2⟩, fun _ => rfl⟩

lemma normChar_ne_dot {c : Char} (hc : c ≠ '.') : normChar c ≠ '.' := by
  unfold normChar
  by_cases h1 : c = '-'
  · subst h1
    decide
  · rw [if_neg h1]
    by_cases h2 : c = '_'
    · subst h2
      decide
    · rw [if_neg h2]
      exact hc

lemma map_eq_self_iff_forall {f : Char → Char} :
    ∀ l : List Char, l.map f = l ↔ ∀ c ∈ l, f c = c := by
  intro l
  induction l with
  | nil => simp
  | cons c t ih =>
    simp only [List.map_cons, List.cons.injEq, List.mem_cons]
    constructor
    · rintro ⟨hc, ht⟩
      intro x hx
      rcases hx with rfl | hx
      · exact hc
      · exact (ih.mp ht) x hx
    · intro h
      exact ⟨h c (Or.inl rfl), ih.mpr (fun x hx => h x (Or.inr hx))⟩

lemma strSplit_sep_append (sep : Char) :
    ∀ (h rest : List Char), sep ∉ h →
      strSplit sep (h ++ sep :: rest) = h :: strSplit sep rest := by
  intro h
  induction h with
  | nil =>
    intro rest _
    show strSplit sep (sep :: rest) = [] :: strSplit sep rest
    conv_lhs => rw [strSplit]
    rw [if_pos rfl]
  | cons c t ih =>
    intro rest hnot
    have hc : c ≠ sep := fun hcs => hnot (hcs ▸ List.mem_cons_self c t)
    have ht : sep ∉ t := fun hts => hnot (List.mem_cons_of_mem c hts)
    show strSplit sep (c :: (t ++ sep :: rest)) = (c :: t) :: strSplit sep rest
    conv_lhs => rw [strSplit]
    rw [if_neg hc, ih rest ht]

lemma append_sep_inj (sep : Char) :
    ∀ (a c b d : List Char), sep ∉ a → sep ∉ c →
      a ++ sep :: b = c ++ sep :: d → a = c ∧ b = d := by
  intro a
  induction a with
  | nil =>
    intro c b d _ hc heq
    cases c with
    | nil =>
      simp only [List.nil_append] at heq
      exact ⟨rfl, (List.cons.injEq _ _ _ _).mp heq |>.2⟩
    | cons x c' =>
      simp only [List.nil_append, List.cons_append, List.cons.injEq] at heq
      exact absurd (heq.1 ▸ List.mem_cons_self x c') hc
  | cons y a' ih =>
    intro c b d ha hc heq
    cases c with
    | nil =>
      simp only [List.cons_append, List.nil_append, List.cons.injEq] at heq
      exact absurd (heq.1.symm ▸ List.mem_cons_self y a') ha
    | cons x c' =>
      simp only [List.cons_append, List.cons.injEq] at heq
      obtain ⟨hyx, heq'⟩ := heq
      have ha' : sep ∉ a' := fun hs => ha (List.mem_cons_of_mem y hs)
      have hc' : sep ∉ c' := fun hs => hc (List.mem_cons_of_mem x hs)
      obtain ⟨h1, h2⟩ := ih c' b d ha' hc' heq'
      exact ⟨by rw [hyx, h1], h2⟩

/-- Claim C10: both engines hash the message reconstructed from the token
after the global `-`/`+` and `_`/`/` substitution of `__main__`; this hashed
message equals the originally signed `header + "." + body` string exactly
when the header and body segments contain no `-` and no `_` characters. -/
theorem engineMessage_eq_signed_iff (h b s : List Char)
    (hh : '.' ∉ h) (hb : '.' ∉ b) (hs : '.' ∉ s) :
    engineMessage (normalizeToken (h ++ '.' :: (b ++ '.' :: s))) = h ++ '.' :: b ↔
      ∀ c ∈ h ++ b, c ≠ '-' ∧ c ≠ '_' := by
  have hmap : normalizeToken (h ++ '.' :: (b ++ '.' :: s)) =
      (h.map normChar) ++ '.' :: ((b.map normChar) ++ '.' :: (s.map normChar)) := by
    rw [normalizeToken_eq_map]
    simp only [List.map_append, List.map_cons]
    rw [show normChar '.' = '.' from by decide]
  have hhm : '.' ∉ h.map normChar := by
    intro hmem
    obtain ⟨c, hcmem, hceq⟩ := List.mem_map.mp hmem
    exact normChar_ne_dot (fun hcd => hh (hcd ▸ hcmem)) hceq
  have hbm : '.' ∉ b.map normChar := by
    intro hmem
    obtain ⟨c, hcmem, hceq⟩ := List.mem_map.mp hmem
    exact normChar_ne_dot (fun hcd => hb (hcd ▸ hcmem)) hceq
  have hsplit : strSplit '.' ((h.map normChar) ++ '.' :: ((b.map normChar) ++ '.' :: (s.map normChar))) =
      (h.map normChar) :: (b.map normChar) :: strSplit '.' (s.map normChar) := by
    rw [strSplit_sep_append '.' _ _ hhm, strSplit_sep_append '.' _ _ hbm]
  have hmsg : engineMessage (normalizeToken (h ++ '.' :: (b ++ '.' :: s))) =
      (h.map normChar) ++ '.' :: (b.map normChar) := by
    rw [hmap]
    unfold engineMessage
    rw [hsplit]
  rw [hmsg]
  constructor
  · intro heq
    obtain ⟨h1, h2⟩ := append_sep_inj '.' _ _ _ _ hhm hh heq
    intro c hc
    rcases List.mem_append.mp hc with hch | hcb
    · exact (normChar_eq_self_iff c).mp ((map_eq_self_iff_forall h).mp h1 c hch)
    · exact (normChar_eq_self_iff c).mp ((map_eq_self_iff_forall b).mp h2 c hcb)
  · intro hall
    have h1 : h.map normChar = h :=
      (map_eq_self_iff_forall h).mpr
        (fun c hc => (normChar_eq_self_iff c).mpr (hall c (List.mem_append.mpr (Or.inl hc))))
    have h2 : b.map normChar = b :=
      (map_eq_self_iff_forall b).mpr
        (fun c hc => (normChar_eq_self_iff c).mpr (hall c (List.mem_append.mpr (Or.inr hc))))
    rw [h1, h2]

/-- Witness for `engineMessage_eq_signed_iff` on a token whose header
contains a `-`: the hashed message differs from the signed string, matching
the right-hand side being false. -/
theorem engineMessage_eq_signed_iff_witness :
    (engineMessage (normalizeToken (['e', '-'] ++ '.' :: (['A'] ++ '.' :: ['s']))) =
        ['e', '-'] ++ '.' :: ['A'] ↔
      ∀ c ∈ ['e', '-'] ++ ['A'], c ≠ '-' ∧ c ≠ '_') :=
  engineMessage_eq_signed_iff ['e', '-'] ['A'] ['s'] (by decide) (by decide) (by decide)

section ECPointLemmas

lemma some_eq_some {F : Type} [Field F] {W : WeierstrassCurve.Affine F}
    {x₁ y₁ x₂ y₂ : F} {h₁ : W.Nonsingular x₁ y₁} {h₂ : W.Nonsingular x₂ y₂}
    (hx : x₁ = x₂) (hy : y₁ = y₂) :
    WeierstrassCurve.Affine.Point.some h₁ = WeierstrassCurve.Affine.Point.some h₂ := by
  subst hx
  subst hy
  rfl

lemma slopeC_eq {F : Type} [Field F] [DecidableEq F] (W : WeierstrassCurve.Affine F)
    (x₁ x₂ y₁ y₂ : F) : slopeC W x₁ x₂ y₁ y₂ = W.slope x₁ x₂ y₁ y₂ := by
  by_cases hx : x₁ = x₂
  · by_cases hy : y₁ = W.negY x₂ y₂
    · rw [slopeC, if_pos hx, if_pos hy, WeierstrassCurve.Affine.slope_of_Y_eq hx hy]
    · rw [slopeC, if_pos hx, if_neg hy, WeierstrassCurve.Affine.slope_of_Y_ne hx hy]
  · rw [slopeC, if_neg hx, WeierstrassCurve.Affine.slope_of_X_ne hx]

lemma pAdd_eq {F : Type} [Field F] [DecidableEq F] {W : WeierstrassCurve.Affine F}
    (P Q : W.Point) : pAdd P Q = P + Q := by
  cases P with
  | zero =>
    simp only [pAdd]
    rw [WeierstrassCurve.Affine.Point.zero_def, zero_add]
  | some h₁ =>
    cases Q with
    | zero =>
      simp only [pAdd]
      rw [WeierstrassCurve.Affine.Point.zero_def, add_zero]
    | some h₂ =>
      rename_i x₁ y₁ x₂ y₂
      by_cases hcase : x₁ = x₂ ∧ y₁ = W.negY x₂ y₂
      · rw [WeierstrassCurve.Affine.Point.add_of_Y_eq hcase.1 hcase.2]
        simp only [pAdd]
        rw [dif_pos hcase]
        rfl
      · rw [WeierstrassCurve.Affine.Point.add_of_imp (fun hx hy => hcase ⟨hx, hy⟩)]
        simp only [pAdd]
        rw [dif_neg hcase]
        exact some_eq_some (by rw [slopeC_eq]) (by rw [slopeC_eq])

lemma pSub_eq {F : Type} [Field F] [DecidableEq F] {W : WeierstrassCurve.Affine F}
    (P Q : W.Point) : pSub P Q = P - Q := by
  unfold pSub
  rw [pAdd_eq, WeierstrassCurve.Affine.Point.neg_def, sub_eq_add_neg]

lemma pSmul_eq {F : Type} [Field F] [DecidableEq F] {W : WeierstrassCurve.Affine F}
    (n : ℕ) (P : W.Point) : pSmul n P = n • P := by
  induction n with
  | zero =>
    show (WeierstrassCurve.Affine.Point.zero : W.Point) = 0 • P
    rw [zero_nsmul]
    rfl
  | succ m ih =>
    show pAdd P (pSmul m P) = (m + 1) • P
    rw [pAdd_eq, ih, succ_nsmul, add_comm]

lemma recoverECDSACandidates_eq {F : Type} [Field F] [DecidableEq F]
    {W : WeierstrassCurve.Affine F} (q : ℕ) (G : W.Point) (r s h : ℕ)
    (R1 R2 : W.Point) :
    recoverECDSACandidates q G r s h R1 R2 =
      ((invmod r q) • (s • R1 - h • G), (invmod r q) • (s • R2 - h • G)) := by
  unfold recoverECDSACandidates
  simp only [pSmul_eq, pSub_eq]

end ECPointLemmas

section ECDSALemmas

lemma invmod_spec (a n : ℕ) [NeZero n] (h : Nat.Coprime a n) :
    a * invmod a n ≡ 1 [MOD n] := by
  have h1 : ((a * invmod a n : ℕ) : ZMod n) = ((1 : ℕ) : ZMod n) := by
    push_cast
    unfold invmod
    rw [ZMod.natCast_val, ZMod.cast_id]
    exact ZMod.coe_mul_inv_eq_one a h
  exact (ZMod.natCast_eq_natCast_iff _ _ _).mp h1

lemma not_dvd_of_inverse {q r r_inv : ℕ} (hq2 : 2 < q)
    (hrinv : r * r_inv ≡ 1 [MOD q]) : ¬ q ∣ r_inv := by
  intro hdvd
  have h0 : (r * r_inv) % q = 0 := Nat.dvd_iff_mod_eq_zero.mp (hdvd.mul_left r)
  have h1 : (1 : ℕ) % q = 1 := Nat.mod_eq_of_lt (by omega)
  unfold Nat.ModEq at hrinv
  omega

lemma zsmul_dvd_eq_zero {F : Type} [Field F] {W : WeierstrassCurve.Affine F}
    (G : W.Point) (q : ℕ) (hqG : q • G = 0) (c : ℤ) (hdvd : (q : ℤ) ∣ c) :
    c • G = 0 := by
  obtain ⟨m, hm⟩ := hdvd
  rw [hm, mul_comm, ← smul_smul, natCast_zsmul, hqG, smul_zero]

lemma zsmul_eq_zero_dvd {F : Type} [Field F] {W : WeierstrassCurve.Affine F}
    (G : W.Point) (q : ℕ) (hq : Nat.Prime q) (hG : G ≠ 0) (hqG : q • G = 0)
    (c : ℤ) (hc : c • G = 0) : (q : ℤ) ∣ c := by
  haveI : Fact (Nat.Prime q) := ⟨hq⟩
  have hord : addOrderOf G = q := addOrderOf_eq_prime hqG hG
  rw [← hord]
  exact addOrderOf_dvd_iff_zsmul_eq_zero.mpr hc

lemma combo_smul {F : Type} [Field F] {W : WeierstrassCurve.Affine F}
    (G : W.Point) (c : ℤ) (s h r_inv x q : ℕ) (hqG : q • G = 0)
    (hdvd : (q : ℤ) ∣ ((r_inv : ℤ) * ((s : ℤ) * c - (h : ℤ)) - (x : ℤ))) :
    r_inv • (s • (c • G) - h • G) = x • G := by
  have e1 : s • (c • G) = ((s : ℤ) * c) • G := by
    calc s • (c • G) = ((s : ℕ) : ℤ) • (c • G) := (natCast_zsmul _ s).symm
    _ = ((s : ℤ) * c) • G := smul_smul _ _ _
  calc r_inv • (s • (c • G) - h • G)
      = ((r_inv : ℤ)) • (((s : ℤ) * c) • G - ((h : ℕ) : ℤ) • G) := by
        rw [e1, natCast_zsmul G h, natCast_zsmul _ r_inv]
    _ = ((r_inv : ℤ) * ((s : ℤ) * c - (h : ℤ))) • G := by
        rw [← sub_smul, smul_smul]
    _ = ((x : ℕ) : ℤ) • G := by
        rw [← sub_eq_zero, ← sub_smul]
        exact zsmul_dvd_eq_zero G q hqG _ hdvd
    _ = x • G := natCast_zsmul G x

lemma combo_smul_ne {F : Type} [Field F] {W : WeierstrassCurve.Affine F}
    (G : W.Point) (c : ℤ) (s h r_inv x q : ℕ) (hq : Nat.Prime q) (hG : G ≠ 0)
    (hqG : q • G = 0)
    (hndvd : ¬ (q : ℤ) ∣ ((r_inv : ℤ) * ((s : ℤ) * c - (h : ℤ)) - (x : ℤ))) :
    r_inv • (s • (c • G) - h • G) ≠ x • G := by
  intro heq
  refine hndvd ?_
  have e1 : s • (c • G) = ((s : ℤ) * c) • G := by
    calc s • (c • G) = ((s : ℕ) : ℤ) • (c • G) := (natCast_zsmul _ s).symm
    _ = ((s : ℤ) * c) • G := smul_smul _ _ _
  have e2 : ((r_inv : ℤ) * ((s : ℤ) * c - (h : ℤ))) • G = ((x : ℕ) : ℤ) • G := by
    calc ((r_inv : ℤ) * ((s : ℤ) * c - (h : ℤ))) • G
        = ((r_inv : ℤ)) • (((s : ℤ) * c) • G - ((h : ℕ) : ℤ) • G) := by
          rw [← sub_smul, smul_smul]
    _ = r_inv • (s • (c • G) - h • G) := by
          rw [e1, natCast_zsmul G h, natCast_zsmul _ r_inv]
    _ = x • G := heq
    _ = ((x : ℕ) : ℤ) • G := (natCast_zsmul G x).symm
  have e3 : (((r_inv : ℤ) * ((s : ℤ) * c - (h : ℤ)) - (x : ℤ))) • G = 0 := by
    rw [sub_smul, e2, sub_self]
  exact zsmul_eq_zero_dvd G q hq hG hqG _ e3

end ECDSALemmas

/-- Claim C2: for a valid ECDSA key pair on a short Weierstrass curve over a
prime field (the setting of ES256/ES384/ES512) and any message hash, with a
genuine signature `(r, s)` whose `r` equals the x-coordinate of the ephemeral
point (the generic in-range case) and whose values are nonzero modulo the
odd prime group order, `recoverECDSAKey` computes exactly two candidate
points: exactly one of them is the real public key `x • G`, and the other is
a distinct, well-formed point on the same curve. -/
theorem recoverECDSACandidates_exactly_one {F : Type} [Field F] [DecidableEq F]
    (A B : F) (q x k h s r : ℕ) (G : (shortW A B).Point) (xR yR y1 y2 : F)
    (hnsR : (shortW A B).Nonsingular xR yR)
    (hns1 : (shortW A B).Nonsingular ((r : ℕ) : F) y1)
    (hns2 : (shortW A B).Nonsingular ((r : ℕ) : F) y2)
    (hq : Nat.Prime q) (hq2 : 2 < q)
    (hG : G ≠ 0) (hqG : q • G = 0)
    (hkG : k • G = WeierstrassCurve.Affine.Point.some hnsR)
    (hrx : ((r : ℕ) : F) = xR)
    (hy1 : y1 ^ 2 = ((r : ℕ) : F) ^ 3 + A * ((r : ℕ) : F) + B)
    (hy2 : y2 = -y1)
    (hsk : s * k ≡ h + r * x [MOD q])
    (hqs : ¬ q ∣ s) (hqk : ¬ q ∣ k) (hqr : ¬ q ∣ r) :
    (((recoverECDSACandidates q G r s h (WeierstrassCurve.Affine.Point.some hns1)
          (WeierstrassCurve.Affine.Point.some hns2)).1 = x • G ∧
        (recoverECDSACandidates q G r s h (WeierstrassCurve.Affine.Point.some hns1)
          (WeierstrassCurve.Affine.Point.some hns2)).2 ≠ x • G) ∨
      ((recoverECDSACandidates q G r s h (WeierstrassCurve.Affine.Point.some hns1)
          (WeierstrassCurve.Affine.Point.some hns2)).2 = x • G ∧
        (recoverECDSACandidates q G r s h (WeierstrassCurve.Affine.Point.some hns1)
          (WeierstrassCurve.Affine.Point.some hns2)).1 ≠ x • G)) ∧
      (recoverECDSACandidates q G r s h (WeierstrassCurve.Affine.Point.some hns1)
        (WeierstrassCurve.Affine.Point.some hns2)).1 ≠
        (recoverECDSACandidates q G r s h (WeierstrassCurve.Affine.Point.some hns1)
          (WeierstrassCurve.Affine.Point.some hns2)).2 := by
  haveI : NeZero q := ⟨hq.pos.ne'⟩
  have hco : Nat.Coprime r q := (hq.coprime_iff_not_dvd.mpr hqr).symm
  have hrinv : r * invmod r q ≡ 1 [MOD q] := invmod_spec r q hco
  -- integer congruences from the signing equation and the inverse
  have hint : (s : ℤ) * (k : ℤ) ≡ (h : ℤ) + (r : ℤ) * (x : ℤ) [ZMOD (q : ℤ)] := by
    have hcast := natModEq_intModEq hsk
    push_cast at hcast
    exact hcast
  have hrinvint : (r : ℤ) * ((invmod r q : ℕ) : ℤ) ≡ 1 [ZMOD (q : ℤ)] := by
    have hcast := natModEq_intModEq hrinv
    push_cast at hcast
    exact hcast
  have hdvd1 : (q : ℤ) ∣ (((invmod r q : ℕ) : ℤ) * ((s : ℤ) * (k : ℤ) - (h : ℤ)) - (x : ℤ)) := by
    obtain ⟨u, hu⟩ := hint.dvd
    obtain ⟨v, hv⟩ := hrinvint.dvd
    refine ⟨-((invmod r q : ℕ) : ℤ) * u - (x : ℤ) * v, ?_⟩
    linear_combination (-((invmod r q : ℕ) : ℤ)) * hu - (x : ℤ) * hv
  have hndvd2 : ¬ (q : ℤ) ∣
      (((invmod r q : ℕ) : ℤ) * ((s : ℤ) * (-(k : ℤ)) - (h : ℤ)) - (x : ℤ)) := by
    intro hdvd2
    have hdiff : (q : ℤ) ∣
        ((((invmod r q : ℕ) : ℤ) * ((s : ℤ) * (k : ℤ) - (h : ℤ)) - (x : ℤ)) -
          (((invmod r q : ℕ) : ℤ) * ((s : ℤ) * (-(k : ℤ)) - (h : ℤ)) - (x : ℤ))) :=
      dvd_sub hdvd1 hdvd2
    have h2 : ((((invmod r q : ℕ) : ℤ) * ((s : ℤ) * (k : ℤ) - (h : ℤ)) - (x : ℤ)) -
        (((invmod r q : ℕ) : ℤ) * ((s : ℤ) * (-(k : ℤ)) - (h : ℤ)) - (x : ℤ))) =
        ((2 * invmod r q * s * k : ℕ) : ℤ) := by
      push_cast
      ring
    rw [h2, Int.natCast_dvd_natCast] at hdiff
    rcases hq.dvd_mul.mp hdiff with hd | hd
    · rcases hq.dvd_mul.mp hd with hd' | hd'
      · rcases hq.dvd_mul.mp hd' with hd'' | hd''
        · have := Nat.le_of_dvd (by norm_num) hd''
          omega
        · exact not_dvd_of_inverse hq2 hrinv hd''
      · exact hqs hd'
    · exact hqk hd
  -- the curve equation satisfied by the ephemeral point
  have hReq : yR ^ 2 = xR ^ 3 + A * xR + B := by
    have heq := hnsR.1
    rw [WeierstrassCurve.Affine.equation_iff] at heq
    simpa [shortW] using heq
  have hy1' : y1 = yR ∨ y1 = -yR := by
    have hsq : (y1 - yR) * (y1 + yR) = 0 := by
      have h0 : y1 ^ 2 = yR ^ 2 := by rw [hy1, hrx, hReq]
      linear_combination h0
    rcases mul_eq_zero.mp hsq with hcase | hcase
    · exact Or.inl (sub_eq_zero.mp hcase)
    · exact Or.inr (eq_neg_of_add_eq_zero_left hcase)
  have hnegY : ∀ u v : F, (shortW A B).negY u v = -v := by
    intro u v
    simp [shortW, WeierstrassCurve.Affine.negY]
  have hKK := recoverECDSACandidates_eq q G r s h
    (WeierstrassCurve.Affine.Point.some hns1) (WeierstrassCurve.Affine.Point.some hns2)
  have hkGz : k • G = ((k : ℕ) : ℤ) • G := (natCast_zsmul G k).symm
  have hnegkGz : -(k • G) = (-((k : ℕ) : ℤ)) • G := by
    rw [hkGz, neg_smul]
  rcases hy1' with hcase | hcase
  · -- y1 is the true y-coordinate: the first candidate is the public key
    have hR1 : WeierstrassCurve.Affine.Point.some hns1 = k • G := by
      rw [hkG]
      exact some_eq_some hrx hcase
    have hR2 : WeierstrassCurve.Affine.Point.some hns2 = -(k • G) := by
      rw [hkG, WeierstrassCurve.Affine.Point.neg_some]
      refine some_eq_some hrx ?_
      rw [hy2, hcase, hnegY]
    have hK1 : (recoverECDSACandidates q G r s h (WeierstrassCurve.Affine.Point.some hns1)
        (WeierstrassCurve.Affine.Point.some hns2)).1 = x • G := by
      rw [hKK]
      show invmod r q • (s • WeierstrassCurve.Affine.Point.some hns1 - h • G) = x • G
      rw [hR1, hkGz]
      exact combo_smul G _ s h (invmod r q) x q hqG hdvd1
    have hK2 : (recoverECDSACandidates q G r s h (WeierstrassCurve.Affine.Point.some hns1)
        (WeierstrassCurve.Affine.Point.some hns2)).2 ≠ x • G := by
      rw [hKK]
      show invmod r q • (s • WeierstrassCurve.Affine.Point.some hns2 - h • G) ≠ x • G
      rw [hR2, hnegkGz]
      exact combo_smul_ne G _ s h (invmod r q) x q hq hG hqG hndvd2
    exact ⟨Or.inl ⟨hK1, hK2⟩, fun h12 => hK2 (h12.symm.trans hK1)⟩
  · -- y1 is the negated y-coordinate: the second candidate is the public key
    have hR1 : WeierstrassCurve.Affine.Point.some hns1 = -(k • G) := by
      rw [hkG, WeierstrassCurve.Affine.Point.neg_some]
      refine some_eq_some hrx ?_
      rw [hcase, hnegY]
    have hR2 : WeierstrassCurve.Affine.Point.some hns2 = k • G := by
      rw [hkG]
      refine some_eq_some hrx ?_
      rw [hy2, hcase, neg_neg]
    have hK2 : (recoverECDSACandidates q G r s h (WeierstrassCurve.Affine.Point.some hns1)
        (WeierstrassCurve.Affine.Point.some hns2)).2 = x • G := by
      rw [hKK]
      show invmod r q • (s • WeierstrassCurve.Affine.Point.some hns2 - h • G) = x • G
      rw [hR2, hkGz]
      exact combo_smul G _ s h (invmod r q) x q hqG hdvd1
    have hK1 : (recoverECDSACandidates q G r s h (WeierstrassCurve.Affine.Point.some hns1)
        (WeierstrassCurve.Affine.Point.some hns2)).1 ≠ x • G := by
      rw [hKK]
      show invmod r q • (s • WeierstrassCurve.Affine.Point.some hns1 - h • G) ≠ x • G
      rw [hR1, hnegkGz]
      exact combo_smul_ne G _ s h (invmod r q) x q hq hG hqG hndvd2
    exact ⟨Or.inr ⟨hK2, hK1⟩, fun h12 => hK1 (h12.trans hK2)⟩

lemma wns_32 : wCurve.Nonsingular 3 2 := by
  rw [WeierstrassCurve.Affine.nonsingular_iff, WeierstrassCurve.Affine.equation_iff]
  decide

lemma wns_52 : wCurve.Nonsingular 5 2 := by
  rw [WeierstrassCurve.Affine.nonsingular_iff, WeierstrassCurve.Affine.equation_iff]
  decide

lemma wns_62 : wCurve.Nonsingular 6 2 := by
  rw [WeierstrassCurve.Affine.nonsingular_iff, WeierstrassCurve.Affine.equation_iff]
  decide

lemma wns_35 : wCurve.Nonsingular 3 5 := by
  rw [WeierstrassCurve.Affine.nonsingular_iff, WeierstrassCurve.Affine.equation_iff]
  decide

lemma wcast3 : ((3 : ℕ) : ZMod 7) = (3 : ZMod 7) := by decide

lemma wns_32' : wCurve.Nonsingular ((3 : ℕ) : ZMod 7) 2 := by
  rw [wcast3]
  exact wns_32

lemma wns_35' : wCurve.Nonsingular ((3 : ℕ) : ZMod 7) 5 := by
  rw [wcast3]
  exact wns_35

lemma wslope_G : wCurve.slope 3 3 2 2 = 5 := by
  rw [WeierstrassCurve.Affine.slope_of_Y_ne rfl (by decide)]
  rw [div_eq_iff (by decide)]
  decide

lemma wG2 : wG + wG = WeierstrassCurve.Affine.Point.some wns_52 := by
  show WeierstrassCurve.Affine.Point.some wns_32 + WeierstrassCurve.Affine.Point.some wns_32 =
    WeierstrassCurve.Affine.Point.some wns_52
  rw [WeierstrassCurve.Affine.Point.add_of_Y_ne (by decide)]
  exact some_eq_some (by rw [wslope_G]; decide) (by rw [wslope_G]; decide)

lemma wslope_2G : wCurve.slope 5 5 2 2 = 3 := by
  rw [WeierstrassCurve.Affine.slope_of_Y_ne rfl (by decide)]
  rw [div_eq_iff (by decide)]
  decide

lemma wG4 : WeierstrassCurve.Affine.Point.some wns_52 + WeierstrassCurve.Affine.Point.some wns_52 =
    WeierstrassCurve.Affine.Point.some wns_62 := by
  rw [WeierstrassCurve.Affine.Point.add_of_Y_ne (by decide)]
  exact some_eq_some (by rw [wslope_2G]; decide) (by rw [wslope_2G]; decide)

lemma wslope_24 : wCurve.slope 5 6 2 2 = 0 := by
  rw [WeierstrassCurve.Affine.slope_of_X_ne (by decide)]
  rw [div_eq_iff (by decide)]
  decide

lemma wG24 : WeierstrassCurve.Affine.Point.some wns_52 + WeierstrassCurve.Affine.Point.some wns_62 =
    WeierstrassCurve.Affine.Point.some wns_35 := by
  rw [WeierstrassCurve.Affine.Point.add_of_X_ne (by decide)]
  exact some_eq_some (by rw [wslope_24]; decide) (by rw [wslope_24]; decide)

lemma wGneg : -wG = WeierstrassCurve.Affine.Point.some wns_35 := by
  show -WeierstrassCurve.Affine.Point.some wns_32 = WeierstrassCurve.Affine.Point.some wns_35
  rw [WeierstrassCurve.Affine.Point.neg_some]

lemma wG7 : (7 : ℕ) • wG = 0 := by
  show ((1 + (2 + (2 + 2)) : ℕ)) • wG = 0
  rw [add_nsmul, one_nsmul, add_nsmul, add_nsmul, two_nsmul, wG2, wG4, wG24,
    ← wGneg, add_neg_cancel]

lemma wG_ne_zero : wG ≠ 0 :=
  WeierstrassCurve.Affine.Point.some_ne_zero wns_32

lemma wG1 : (1 : ℕ) • wG = WeierstrassCurve.Affine.Point.some wns_32 := by
  rw [one_nsmul]
  rfl

/-- Witness for `recoverECDSACandidates_exactly_one`: curve `y^2 = x^3 + 5`
over `F_7` with base point `G = (3, 2)` of order 7, private key 2, nonce 1,
message hash 2, signature `(r, s) = (3, 1)`. -/
theorem recoverECDSACandidates_exactly_one_witness :
    (((recoverECDSACandidates 7 wG 3 1 2 (WeierstrassCurve.Affine.Point.some wns_32')
          (WeierstrassCurve.Affine.Point.some wns_35')).1 = 2 • wG ∧
        (recoverECDSACandidates 7 wG 3 1 2 (WeierstrassCurve.Affine.Point.some wns_32')
          (WeierstrassCurve.Affine.Point.some wns_35')).2 ≠ 2 • wG) ∨
      ((recoverECDSACandidates 7 wG 3 1 2 (WeierstrassCurve.Affine.Point.some wns_32')
          (WeierstrassCurve.Affine.Point.some wns_35')).2 = 2 • wG ∧
        (recoverECDSACandidates 7 wG 3 1 2 (WeierstrassCurve.Affine.Point.some wns_32')
          (WeierstrassCurve.Affine.Point.some wns_35')).1 ≠ 2 • wG)) ∧
      (recoverECDSACandidates 7 wG 3 1 2 (WeierstrassCurve.Affine.Point.some wns_32')
        (WeierstrassCurve.Affine.Point.some wns_35')).1 ≠
        (recoverECDSACandidates 7 wG 3 1 2 (WeierstrassCurve.Affine.Point.some wns_32')
          (WeierstrassCurve.Affine.Point.some wns_35')).2 :=
  recoverECDSACandidates_exactly_one 0 5 7 2 1 2 1 3 wG 3 2 2 5 wns_32 wns_32' wns_35'
    (by norm_num) (by norm_num) wG_ne_zero wG7 wG1 (by decide) (by decide) (by decide)
    (by decide) (by decide) (by decide) (by decide)
